import Mathlib

/-!
Verification of the pycassa `ColumnFamily` client layer
(`src/pycassa/columnfamily.py`), shallowly embedded in Lean 4.

Conventions of the embedding:
* a Python byte string is a `List Nat` of byte values;
* Python row keys are opaque to this layer (never packed or compared by
  the client code itself), so they are modelled as `Nat`;
* fallible Python code (raising exceptions) is modelled with `Option` /
  `Except`;
* the remote Thrift client is an external collaborator: its responses are
  passed to the embedded functions as explicit arguments, and where a
  claim quantifies over server behaviour the response is generated from
  an explicit store model.
-/

namespace Pycassa

/-! ## Byte-level helpers (model of Python `struct.pack`/`unpack`) -/

/-- Big-endian byte encoding of `n` into exactly `w` bytes
(model of `struct.pack` with a fixed-width format). -/
def natToBytesBE : Nat → Nat → List Nat
  | 0, _ => []
  | w + 1, n => natToBytesBE w (n / 256) ++ [n % 256]

/-- Big-endian byte decoding (model of `struct.unpack` on a fixed width). -/
def bytesToNatBE (bs : List Nat) : Nat :=
  bs.foldl (fun acc b => acc * 256 + b) 0

theorem natToBytesBE_length (w n : Nat) : (natToBytesBE w n).length = w := by
  induction w generalizing n with
  | zero => rfl
  | succ w ih => simp [natToBytesBE, ih]

theorem bytesToNatBE_append (xs ys : List Nat) :
    bytesToNatBE (xs ++ ys) =
      ys.foldl (fun acc b => acc * 256 + b) (bytesToNatBE xs) := by
  simp [bytesToNatBE, List.foldl_append]

theorem bytesToNatBE_natToBytesBE (w n : Nat) (h : n < 256 ^ w) :
    bytesToNatBE (natToBytesBE w n) = n := by
  induction w generalizing n with
  | zero =>
    simp [natToBytesBE, bytesToNatBE]
    omega
  | succ w ih =>
    have hdiv : n / 256 < 256 ^ w := by
      rw [Nat.div_lt_iff_lt_mul (by norm_num)]
      calc n < 256 ^ (w + 1) := h
        _ = 256 ^ w * 256 := by ring
    rw [natToBytesBE, bytesToNatBE_append, ih _ hdiv]
    simp
    omega

theorem natToBytesBE_lt (w n : Nat) : ∀ b ∈ natToBytesBE w n, b < 256 := by
  induction w generalizing n with
  | zero => simp [natToBytesBE]
  | succ w ih =>
    intro b hb
    rw [natToBytesBE] at hb
    rcases List.mem_append.1 hb with h | h
    · exact ih _ b h
    · simp at h; omega

/-! ## Type-name resolution (`_TYPES`, `ColumnFamily._extract_type_name`) -/

/-- The closed list `_TYPES` from `columnfamily.py`. -/
def TYPES : List String :=
  ["BytesType", "LongType", "IntegerType", "UTF8Type", "AsciiType",
   "LexicalUUIDType", "TimeUUIDType"]

/-- Suffix of a character list strictly after its last `'.'`;
`none` when no dot occurs (model of Python `string.rfind('.')` followed
by the slice `string[index + 1:]`). -/
def suffixAfterLastDot : List Char → Option (List Char)
  | [] => none
  | c :: rest =>
    match suffixAfterLastDot rest with
    | some t => some t
    | none => if c = '.' then some rest else none

/-- `ColumnFamily._extract_type_name`: `None` maps to `'BytesType'`;
otherwise take the component after the last dot, falling back to
`'BytesType'` when there is no dot or the component is not in `_TYPES`. -/
def extract_type_name (s : Option (List Char)) : String :=
  match s with
  | none => "BytesType"
  | some cs =>
    match suffixAfterLastDot cs with
    | none => "BytesType"
    | some t =>
      if (String.mk t) ∈ TYPES then String.mk t else "BytesType"

/-! ## Python values and the type codec (`ColumnFamily._pack` / `_unpack`) -/

/-- UTF-8 encoding of one Unicode code point (model of the byte sequence
Python's `'utf-8'` codec produces for one character). -/
def utf8EncodeChar (c : Nat) : List Nat :=
  if c < 128 then [c]
  else if c < 2048 then [192 + c / 64, 128 + c % 64]
  else if c < 65536 then
    [224 + c / 4096, 128 + (c / 64) % 64, 128 + c % 64]
  else
    [240 + c / 262144, 128 + (c / 4096) % 64, 128 + (c / 64) % 64, 128 + c % 64]

/-- UTF-8 encoding of a string of code points. -/
def utf8Encode (cs : List Nat) : List Nat := (cs.map utf8EncodeChar).flatten

/-- Reads `k` UTF-8 continuation bytes, accumulating their payloads onto
`acc`; `none` if a byte is not a continuation byte. -/
def readCont (acc : Nat) : Nat → List Nat → Option (Nat × List Nat)
  | 0, bs => some (acc, bs)
  | _ + 1, [] => none
  | k + 1, b :: bs =>
    if 128 ≤ b ∧ b < 192 then readCont (acc * 64 + (b - 128)) k bs else none

/-- Fuel-indexed UTF-8 decoder (one unit of fuel per decoded code
point; `bs.length` fuel always suffices). -/
def utf8DecodeF : Nat → List Nat → Option (List Nat)
  | _, [] => some []
  | 0, _ :: _ => none
  | fuel + 1, b0 :: rest =>
    if b0 < 128 then (utf8DecodeF fuel rest).map (b0 :: ·)
    else if b0 < 192 then none
    else if b0 < 224 then
      match readCont (b0 - 192) 1 rest with
      | some (v, rest') => (utf8DecodeF fuel rest').map (v :: ·)
      | none => none
    else if b0 < 240 then
      match readCont (b0 - 224) 2 rest with
      | some (v, rest') => (utf8DecodeF fuel rest').map (v :: ·)
      | none => none
    else if b0 < 248 then
      match readCont (b0 - 240) 3 rest with
      | some (v, rest') => (utf8DecodeF fuel rest').map (v :: ·)
      | none => none
    else none

/-- UTF-8 decoding of a byte list into code points; `none` on malformed
bytes (model of `bytes.decode('utf-8')`). -/
def utf8Decode (bs : List Nat) : Option (List Nat) := utf8DecodeF bs.length bs

theorem readCont_length (acc k : Nat) (bs : List Nat) (v : Nat) (rest : List Nat)
    (h : readCont acc k bs = some (v, rest)) : rest.length + k = bs.length := by
  induction k generalizing acc bs with
  | zero =>
    simp only [readCont, Option.some.injEq, Prod.mk.injEq] at h
    rw [h.2]
    simp
  | succ k ih =>
    cases bs with
    | nil => simp [readCont] at h
    | cons b tl =>
      simp only [readCont] at h
      split at h
      · have := ih _ _ h
        simp only [List.length_cons]
        omega
      · exact absurd h (by simp)

theorem utf8DecodeF_fuel (fuel fuel' : Nat) (bs : List Nat)
    (h : bs.length ≤ fuel) (h' : bs.length ≤ fuel') :
    utf8DecodeF fuel bs = utf8DecodeF fuel' bs := by
  induction fuel generalizing fuel' bs with
  | zero =>
    have : bs = [] := by
      cases bs with
      | nil => rfl
      | cons b tl => simp at h
    subst this
    cases fuel' <;> rfl
  | succ fuel ih =>
    cases bs with
    | nil => cases fuel' <;> rfl
    | cons b0 rest =>
      cases fuel' with
      | zero => simp at h'
      | succ fuel' =>
        have hrest : rest.length ≤ fuel := by simp at h; omega
        have hrest' : rest.length ≤ fuel' := by simp at h'; omega
        simp only [utf8DecodeF]
        by_cases h1 : b0 < 128
        · simp only [h1, if_true, ih _ rest hrest hrest']
        · simp only [h1, if_false]
          by_cases h2 : b0 < 192
          · simp [h2]
          · simp only [h2, if_false]
            by_cases h3 : b0 < 224
            · simp only [h3, if_true]
              match hrc : readCont (b0 - 192) 1 rest with
              | some (v, rest') =>
                have hl := readCont_length _ _ _ _ _ hrc
                have e1 : utf8DecodeF fuel rest' = utf8DecodeF fuel' rest' :=
                  ih _ rest' (by omega) (by omega)
                simp only [e1]
              | none => rfl
            · simp only [h3, if_false]
              by_cases h4 : b0 < 240
              · simp only [h4, if_true]
                match hrc : readCont (b0 - 224) 2 rest with
                | some (v, rest') =>
                  have hl := readCont_length _ _ _ _ _ hrc
                  have e1 : utf8DecodeF fuel rest' = utf8DecodeF fuel' rest' :=
                    ih _ rest' (by omega) (by omega)
                  simp only [e1]
                | none => rfl
              · simp only [h4, if_false]
                by_cases h5 : b0 < 248
                · simp only [h5, if_true]
                  match hrc : readCont (b0 - 240) 3 rest with
                  | some (v, rest') =>
                    have hl := readCont_length _ _ _ _ _ hrc
                    have e1 : utf8DecodeF fuel rest' = utf8DecodeF fuel' rest' :=
                      ih _ rest' (by omega) (by omega)
                    simp only [e1]
                  | none => rfl
                · simp [h5]

theorem utf8DecodeF_encodeChar (c : Nat) (hc : c < 1114112) (bs : List Nat) (fuel : Nat) :
    utf8DecodeF (fuel + 1) (utf8EncodeChar c ++ bs) = (utf8DecodeF fuel bs).map (c :: ·) := by
  unfold utf8EncodeChar
  by_cases h1 : c < 128
  · simp [utf8DecodeF, h1]
  · by_cases h2 : c < 2048
    · simp only [h1, h2, if_true, if_false, List.cons_append, List.nil_append, utf8DecodeF]
      have hb0 : ¬ (192 + c / 64 < 128) := by omega
      have hb0' : ¬ (192 + c / 64 < 192) := by omega
      have hb0'' : 192 + c / 64 < 224 := by omega
      simp only [hb0, hb0', hb0'', if_false, if_true]
      have hcont : 128 ≤ 128 + c % 64 ∧ 128 + c % 64 < 192 := by omega
      simp only [readCont, hcont.1, hcont.2, and_self, if_true]
      have he : (192 + c / 64 - 192) * 64 + (128 + c % 64 - 128) = c := by omega
      rw [he]
    · by_cases h3 : c < 65536
      · simp only [h1, h2, h3, if_true, if_false, List.cons_append, List.nil_append,
          utf8DecodeF]
        have hb0 : ¬ (224 + c / 4096 < 128) := by omega
        have hb0' : ¬ (224 + c / 4096 < 192) := by omega
        have hb0'' : ¬ (224 + c / 4096 < 224) := by omega
        have hb0''' : 224 + c / 4096 < 240 := by omega
        simp only [hb0, hb0', hb0'', hb0''', if_false, if_true]
        have hcont1 : 128 ≤ 128 + (c / 64) % 64 ∧ 128 + (c / 64) % 64 < 192 := by omega
        have hcont2 : 128 ≤ 128 + c % 64 ∧ 128 + c % 64 < 192 := by omega
        simp only [readCont, hcont1.1, hcont1.2, hcont2.1, hcont2.2, and_self, if_true]
        have he : ((224 + c / 4096 - 224) * 64 + (128 + (c / 64) % 64 - 128)) * 64 +
            (128 + c % 64 - 128) = c := by omega
        rw [he]
      · simp only [h1, h2, h3, if_true, if_false, List.cons_append, List.nil_append,
          utf8DecodeF]
        have hb0 : ¬ (240 + c / 262144 < 128) := by omega
        have hb0' : ¬ (240 + c / 262144 < 192) := by omega
        have hb0'' : ¬ (240 + c / 262144 < 224) := by omega
        have hb0''' : ¬ (240 + c / 262144 < 240) := by omega
        have hb0'''' : 240 + c / 262144 < 248 := by omega
        simp only [hb0, hb0', hb0'', hb0''', hb0'''', if_false, if_true]
        have hcont1 : 128 ≤ 128 + (c / 4096) % 64 ∧ 128 + (c / 4096) % 64 < 192 := by omega
        have hcont2 : 128 ≤ 128 + (c / 64) % 64 ∧ 128 + (c / 64) % 64 < 192 := by omega
        have hcont3 : 128 ≤ 128 + c % 64 ∧ 128 + c % 64 < 192 := by omega
        simp only [readCont, hcont1.1, hcont1.2, hcont2.1, hcont2.2, hcont3.1, hcont3.2,
          and_self, if_true]
        have he : (((240 + c / 262144 - 240) * 64 + (128 + (c / 4096) % 64 - 128)) * 64 +
            (128 + (c / 64) % 64 - 128)) * 64 + (128 + c % 64 - 128) = c := by omega
        rw [he]

theorem utf8EncodeChar_length_pos (c : Nat) : 1 ≤ (utf8EncodeChar c).length := by
  unfold utf8EncodeChar
  split <;> [simp; split <;> [simp; split <;> simp]]

theorem utf8Decode_encodeChar_append (c : Nat) (hc : c < 1114112) (bs : List Nat) :
    utf8Decode (utf8EncodeChar c ++ bs) = (utf8Decode bs).map (c :: ·) := by
  have hlen : 1 ≤ (utf8EncodeChar c).length := utf8EncodeChar_length_pos c
  have hm : (utf8EncodeChar c ++ bs).length =
      ((utf8EncodeChar c).length - 1 + bs.length) + 1 := by
    simp only [List.length_append]
    omega
  unfold utf8Decode
  rw [hm, utf8DecodeF_encodeChar c hc bs _,
    utf8DecodeF_fuel ((utf8EncodeChar c).length - 1 + bs.length) bs.length bs
      (by omega) le_rfl]

theorem utf8Decode_encode (cs : List Nat) (h : ∀ c ∈ cs, c < 1114112) :
    utf8Decode (utf8Encode cs) = some cs := by
  induction cs with
  | nil => simp [utf8Encode, utf8Decode, utf8DecodeF]
  | cons c cs ih =>
    have hc : c < 1114112 := h c (by simp)
    have hrest : ∀ x ∈ cs, x < 1114112 := fun x hx => h x (by simp [hx])
    have henc : utf8Encode (c :: cs) = utf8EncodeChar c ++ utf8Encode cs := by
      simp [utf8Encode]
    rw [henc, utf8Decode_encodeChar_append c hc, ih hrest, Option.map_some']

/-- A Python value as seen by the codec: an `int`/`long`, a byte string,
a `unicode` string (list of code points), or a `uuid.UUID`
(constructor carries its 16 `bytes`). -/
inductive PyValue where
  | int (n : Int)
  | str (bs : List Nat)
  | unicode (cs : List Nat)
  | uuid (bs : List Nat)
  deriving DecidableEq, Repr

/-- `ColumnFamily._pack`: packs a value into the byte sequence Cassandra
expects; `none` models the `TypeError`/`struct.error` raised on a value
that cannot satisfy the target type.  The final catch-all branch of the
source returns the value unchanged (`BytesType` and unknown types). -/
def pack (value : PyValue) (data_type : String) : Option PyValue :=
  if data_type = "LongType" then
    match value with
    | .int n => if -(2 ^ 63) ≤ n ∧ n < 2 ^ 63
        then some (.str (natToBytesBE 8 (n % (2 ^ 64 : Int)).toNat)) else none
    | _ => none
  else if data_type = "IntegerType" then
    match value with
    | .int n => if -(2 ^ 31) ≤ n ∧ n < 2 ^ 31
        then some (.str (natToBytesBE 4 (n % (2 ^ 32 : Int)).toNat)) else none
    | _ => none
  else if data_type = "AsciiType" then
    match value with
    | .str bs => some (.str bs)
    | _ => none
  else if data_type = "UTF8Type" then
    match value with
    | .unicode cs => some (.str (utf8Encode cs))
    | .str bs => some (.str bs)
    | _ => none
  else if data_type = "TimeUUIDType" ∨ data_type = "LexicalUUIDType" then
    match value with
    | .uuid bs => if bs.length = 16 then some (.str bs) else none
    | _ => none
  else
    some value

/-- `ColumnFamily._unpack`: decodes Cassandra's byte representation;
`none` models `struct.error` on a byte-length mismatch (and a UTF-8
decode error).  The final branch (`BytesType` and unknown types) is the
identity. -/
def unpack (b : PyValue) (data_type : String) : Option PyValue :=
  if data_type = "LongType" then
    match b with
    | .str bs =>
      if bs.length = 8 then
        let m := bytesToNatBE bs
        some (.int (if m < 2 ^ 63 then (m : Int) else (m : Int) - 2 ^ 64))
      else none
    | _ => none
  else if data_type = "IntegerType" then
    match b with
    | .str bs =>
      if bs.length = 4 then
        let m := bytesToNatBE bs
        some (.int (if m < 2 ^ 31 then (m : Int) else (m : Int) - 2 ^ 32))
      else none
    | _ => none
  else if data_type = "AsciiType" then
    match b with
    | .str bs => some (.str bs)
    | _ => none
  else if data_type = "UTF8Type" then
    match b with
    | .str bs =>
      match utf8Decode bs with
      | some cs => some (.unicode cs)
      | none => none
    | _ => none
  else if data_type = "LexicalUUIDType" ∨ data_type = "TimeUUIDType" then
    match b with
    | .str bs => if bs.length = 16 then some (.uuid bs) else none
    | _ => none
  else
    some b

/-- Validity of a value for a wire type, as the spec's "value valid for
T": the values the source packs without raising.  For `UTF8Type` a valid
value is a text (`unicode`) string of Unicode code points. -/
def validFor (value : PyValue) (data_type : String) : Prop :=
  if data_type = "LongType" then
    ∃ n, value = .int n ∧ -(2 ^ 63) ≤ n ∧ n < 2 ^ 63
  else if data_type = "IntegerType" then
    ∃ n, value = .int n ∧ -(2 ^ 31) ≤ n ∧ n < 2 ^ 31
  else if data_type = "AsciiType" ∨ data_type = "BytesType" then
    ∃ bs, value = .str bs
  else if data_type = "UTF8Type" then
    ∃ cs, value = .unicode cs ∧ ∀ c ∈ cs, c < 1114112
  else if data_type = "TimeUUIDType" ∨ data_type = "LexicalUUIDType" then
    ∃ bs, value = .uuid bs ∧ bs.length = 16
  else False

/-! ## Slice predicates (`create_SlicePredicate`) -/

/-- Thrift `SlicePredicate`, modelled as the tagged variant the two
mutually exclusive field settings of the source produce: either an
explicit column-name list or a `SliceRange`. -/
inductive SlicePred where
  | col_names (names : List (List Nat))
  | slice_range (start finish : List Nat) (reversed : Bool) (count : Nat)
  deriving DecidableEq, Repr

/-- `create_SlicePredicate` from `columnfamily.py`: the explicit list is
used whenever `columns is not None`, otherwise a `SliceRange` is built. -/
def create_SlicePredicate (columns : Option (List (List Nat)))
    (column_start column_finish : List Nat) (column_reversed : Bool)
    (column_count : Nat) : SlicePred :=
  match columns with
  | some cols => .col_names cols
  | none => .slice_range column_start column_finish column_reversed column_count

/-! ## Wire structures and result assembly
(`ColumnFamily._convert_*`, `get`, `multiget`, `get_indexed_slices`) -/

/-- A Thrift `Column` as returned by the server. -/
structure WireColumn where
  name : List Nat
  value : List Nat
  timestamp : Nat
  deriving DecidableEq, Repr

/-- A Thrift `ColumnOrSuperColumn`: exactly one of the two fields is
set. -/
inductive ColumnOrSuper where
  | col (c : WireColumn)
  | sup (name : List Nat) (cols : List WireColumn)
  deriving DecidableEq, Repr

/-- The exceptions of this layer that the claims mention
(`NotFoundException` doubles as pycassa's row-not-found error). -/
inductive PycassaError where
  | notFound
  deriving DecidableEq, Repr

/-- Insertion into an insertion-ordered mapping with Python `dict`
semantics: an existing key keeps its position and gets the new value, a
new key is appended (the `dict_class` strategy of the source, modelled
per the spec as an insertion-ordered map). -/
def dictInsert {κ α : Type} [DecidableEq κ] (m : List (κ × α)) (k : κ) (v : α) :
    List (κ × α) :=
  match m with
  | [] => [(k, v)]
  | (k', v') :: rest => if k' = k then (k, v) :: rest else (k', v') :: dictInsert rest k v

/-- Deletion from the ordered mapping (`del ret[key]`). -/
def dictDelete {κ α : Type} [DecidableEq κ] (m : List (κ × α)) (k : κ) :
    List (κ × α) :=
  m.filter (fun e => e.1 ≠ k)

/-- `ColumnFamily.get`: issues one `get_slice` call (its response is the
`fetched` argument) and raises `NotFoundException` when it holds zero
columns; otherwise converts via
`_convert_ColumnOrSuperColumns_to_dict_class` (the `conv` argument). -/
def get {β : Type} (fetched : List ColumnOrSuper) (conv : List ColumnOrSuper → β) :
    Except PycassaError β :=
  if fetched.length = 0 then .error .notFound
  else .ok (conv fetched)

/-- The `multiget_slice` RPC response, modelled from the Thrift
protocol: one entry per requested key, carrying that key's (possibly
empty) column list; iteration order of the returned mapping is modelled
as request order (the source iterates a `dict` whose order is
unspecified; the claims are stated for distinct keys). -/
def multigetSliceResponse (store : Nat → List ColumnOrSuper) (keys : List Nat) :
    List (Nat × List ColumnOrSuper) :=
  keys.map (fun k => (k, store k))

/-- `ColumnFamily.multiget`: seeds the ordered result with every
requested key mapped to `None`, fills in converted columns for keys
whose response is non-empty (recording them in `non_empty_keys`), then
deletes every requested key that is not in `non_empty_keys`. -/
def multiget {β : Type} (keys : List Nat) (store : Nat → List ColumnOrSuper)
    (conv : List ColumnOrSuper → β) : List (Nat × Option β) :=
  let keymap := multigetSliceResponse store keys
  let ret0 := keys.foldl (fun m k => dictInsert m k none) []
  let step := keymap.foldl
    (fun (p : List (Nat × Option β) × List Nat) kv =>
      if kv.2.length > 0 then (dictInsert p.1 kv.1 (some (conv kv.2)), p.2 ++ [kv.1])
      else p)
    (ret0, [])
  keys.foldl (fun m k => if k ∈ step.2 then m else dictDelete m k) step.1

/-- `ColumnFamily._convert_KeySlice_list_to_dict_class`. -/
def convert_KeySlice_list {β : Type} (keyslices : List (Nat × List ColumnOrSuper))
    (conv : List ColumnOrSuper → β) : List (Nat × β) :=
  keyslices.foldl (fun m e => dictInsert m e.1 (conv e.2)) []

/-- `ColumnFamily.get_indexed_slices`: raises `NotFoundException` when
the indexed-slice fetch returns zero key slices, otherwise converts the
key-slice list into the ordered mapping. -/
def get_indexed_slices {β : Type} (keyslices : List (Nat × List ColumnOrSuper))
    (conv : List ColumnOrSuper → β) : Except PycassaError (List (Nat × β)) :=
  if keyslices.length = 0 then .error .notFound
  else .ok (convert_KeySlice_list keyslices conv)

/-! ### Lemmas about the ordered-dict folds -/

theorem dictInsert_fresh {κ α : Type} [DecidableEq κ] (m : List (κ × α)) (k : κ) (v : α)
    (h : ∀ e ∈ m, e.1 ≠ k) : dictInsert m k v = m ++ [(k, v)] := by
  induction m with
  | nil => rfl
  | cons e rest ih =>
    simp only [dictInsert]
    rw [if_neg (h e (by simp)), ih (fun e' he' => h e' (by simp [he']))]
    rfl

theorem foldl_dictInsert_none {κ β : Type} [DecidableEq κ] (keys : List κ)
    (m : List (κ × Option β)) (hfresh : ∀ k ∈ keys, ∀ e ∈ m, e.1 ≠ k)
    (hnd : keys.Nodup) :
    keys.foldl (fun m k => dictInsert m k none) m
      = m ++ keys.map (fun k => (k, none)) := by
  induction keys generalizing m with
  | nil => simp
  | cons k rest ih =>
    simp only [List.foldl_cons]
    rw [dictInsert_fresh m k none (hfresh k (by simp))]
    rw [ih (m ++ [(k, none)])]
    · simp
    · intro k' hk' e he
      rcases List.mem_append.1 he with hm | hm
      · exact hfresh k' (by simp [hk']) e hm
      · simp only [List.mem_singleton] at hm
        subst hm
        simp only [List.nodup_cons] at hnd
        intro hx
        exact hnd.1 (by rw [show k = k' from hx]; exact hk')
    · exact (List.nodup_cons.1 hnd).2

theorem dictInsert_head_eq {κ α : Type} [DecidableEq κ] (k : κ) (v w : α)
    (m : List (κ × α)) : dictInsert ((k, v) :: m) k w = (k, w) :: m := by
  simp [dictInsert]

theorem dictInsert_head_ne {κ α : Type} [DecidableEq κ] (k k' : κ) (hne : k' ≠ k)
    (v w : α) (m : List (κ × α)) :
    dictInsert ((k', v) :: m) k w = (k', v) :: dictInsert m k w := by
  simp [dictInsert, hne]

/-- The second fold of `multiget` passes over an entry whose key differs
from every processed response key. -/
theorem multiget_fold_skip_head {β : Type} (entries : List (Nat × List ColumnOrSuper))
    (conv : List ColumnOrSuper → β) (k₀ : Nat) (v₀ : Option β)
    (m : List (Nat × Option β)) (ne : List Nat)
    (h : ∀ e ∈ entries, e.1 ≠ k₀) :
    entries.foldl
        (fun (p : List (Nat × Option β) × List Nat) kv =>
          if kv.2.length > 0 then (dictInsert p.1 kv.1 (some (conv kv.2)), p.2 ++ [kv.1])
          else p)
        ((k₀, v₀) :: m, ne)
      = (let q := entries.foldl
          (fun (p : List (Nat × Option β) × List Nat) kv =>
            if kv.2.length > 0 then (dictInsert p.1 kv.1 (some (conv kv.2)), p.2 ++ [kv.1])
            else p)
          (m, ne);
        ((k₀, v₀) :: q.1, q.2)) := by
  induction entries generalizing m ne with
  | nil => simp
  | cons e rest ih =>
    simp only [List.foldl_cons]
    by_cases he : e.2.length > 0
    · simp only [he, if_true]
      rw [dictInsert_head_ne e.1 k₀ (Ne.symm (h e (by simp))) v₀ (some (conv e.2)) m]
      exact ih _ _ (fun e' he' => h e' (by simp [he']))
    · simp only [he, if_false]
      exact ih _ _ (fun e' he' => h e' (by simp [he']))

/-- The second fold of `multiget`, run over the per-key response list:
each key's entry is updated in place when it has data, and
`non_empty_keys` collects the keys with data in order. -/
theorem multiget_fold_spec {β : Type} (store : Nat → List ColumnOrSuper)
    (conv : List ColumnOrSuper → β) (keys : List Nat) (hnd : keys.Nodup)
    (ne0 : List Nat) :
    (keys.map (fun k => (k, store k))).foldl
        (fun (p : List (Nat × Option β) × List Nat) kv =>
          if kv.2.length > 0 then (dictInsert p.1 kv.1 (some (conv kv.2)), p.2 ++ [kv.1])
          else p)
        (keys.map (fun k => (k, none)), ne0)
      = (keys.map (fun k =>
            (k, if (store k).length > 0 then some (conv (store k)) else none)),
         ne0 ++ keys.filter (fun k => (store k).length > 0)) := by
  induction keys generalizing ne0 with
  | nil => simp
  | cons k rest ih =>
    obtain ⟨hk, hrest⟩ := List.nodup_cons.1 hnd
    have hne : ∀ e ∈ rest.map (fun k' => (k', store k')), e.1 ≠ k := by
      intro e he
      obtain ⟨k', hk', rfl⟩ := List.mem_map.1 he
      intro hx
      exact hk (hx ▸ hk')
    simp only [List.map_cons, List.foldl_cons]
    by_cases hdata : (store k).length > 0
    · rw [if_pos hdata, dictInsert_head_eq,
        multiget_fold_skip_head _ conv k _ _ _ hne, ih hrest (ne0 ++ [k])]
      simp [List.filter_cons, hdata]
    · rw [if_neg hdata, multiget_fold_skip_head _ conv k none _ _ hne, ih hrest ne0]
      simp [List.filter_cons, hdata]

/-- The final fold of `multiget` deletes exactly the processed keys that
are not in `non_empty_keys`. -/
theorem foldl_dictDelete {β : Type} (ks : List Nat) (ne : List Nat)
    (m : List (Nat × Option β)) :
    ks.foldl (fun m k => if k ∈ ne then m else dictDelete m k) m
      = m.filter (fun e => decide (e.1 ∈ ne) || !decide (e.1 ∈ ks)) := by
  induction ks generalizing m with
  | nil => simp
  | cons k rest ih =>
    simp only [List.foldl_cons]
    by_cases hk : k ∈ ne
    · rw [if_pos hk, ih]
      apply List.filter_congr
      intro e he
      by_cases h1 : e.1 ∈ ne
      · simp [h1]
      · have hek : e.1 ≠ k := fun hx => h1 (hx ▸ hk)
        simp [h1, hek, List.mem_cons]
    · rw [if_neg hk, ih (dictDelete m k),
        show dictDelete m k = m.filter (fun e => decide (e.1 ≠ k)) from rfl,
        List.filter_filter]
      apply List.filter_congr
      intro e he
      by_cases h1 : e.1 = k
      · rw [h1]
        simp [hk, List.mem_cons]
      · simp [h1, List.mem_cons]

/-- Full characterization of `multiget` over distinct request keys: the
result is exactly the requested keys that have data, in request order,
each mapped to its converted columns (in particular no `None`
placeholder survives). -/
theorem multiget_eq {β : Type} (keys : List Nat) (store : Nat → List ColumnOrSuper)
    (conv : List ColumnOrSuper → β) (hnd : keys.Nodup) :
    multiget keys store conv
      = (keys.filter (fun k => (store k).length > 0)).map
          (fun k => (k, some (conv (store k)))) := by
  unfold multiget multigetSliceResponse
  rw [foldl_dictInsert_none keys [] (by simp) hnd]
  simp only [List.nil_append]
  have hstep := multiget_fold_spec store conv keys hnd []
  simp only [List.nil_append] at hstep
  simp only [hstep]
  rw [foldl_dictDelete keys (keys.filter (fun k => (store k).length > 0)) _]
  rw [List.filter_map]
  have hfilter :
      keys.filter (fun k =>
        ((fun e : Nat × Option β => decide (e.1 ∈ keys.filter
            (fun k => (store k).length > 0)) || !decide (e.1 ∈ keys)) ∘
         (fun k => (k, if (store k).length > 0 then some (conv (store k)) else none))) k)
      = keys.filter (fun k => (store k).length > 0) := by
    apply List.filter_congr
    intro k hkmem
    simp only [Function.comp_apply]
    simp [hkmem, List.mem_filter]
  rw [hfilter]
  apply List.map_congr_left
  intro k hkmem
  have : (store k).length > 0 := by
    simp only [List.mem_filter] at hkmem
    simpa using hkmem.2
  simp [this]

/-! ## The range scanner (`ColumnFamily.get_range`) -/

/-- Model of the external `get_range_slices` RPC against a key-ordered
store: the first `count` rows whose key lies in the inclusive range
`[start_key, end_key]` (the remote store returns rows in key order,
starting at the inclusive start key). -/
def fetchRangeSlices (store : List (Nat × List ColumnOrSuper))
    (start_key end_key count : Nat) : List (Nat × List ColumnOrSuper) :=
  (store.filter (fun r => decide (start_key ≤ r.1) && decide (r.1 ≤ end_key))).take count

/-- The body of `get_range`'s inner `for` loop past the duplicate skip:
yields each row, increments `count`, and returns from the generator as
soon as `count` reaches `row_count`.  Result: (rows yielded, updated
`count`, whether the generator returned). -/
def emitWithLimit {γ : Type} : List γ → Nat → Option Nat → List γ × Nat × Bool
  | [], count, _ => ([], count, false)
  | r :: rest, count, row_count =>
    match row_count with
    | some rc =>
      if rc ≤ count + 1 then ([r], count + 1, true)
      else
        let q := emitWithLimit rest (count + 1) (some rc)
        (r :: q.1, q.2.1, q.2.2)
    | none =>
      let q := emitWithLimit rest (count + 1) none
      (r :: q.1, q.2.1, q.2.2)

/-- The `while True:` paging loop of `ColumnFamily.get_range`, with
explicit fuel bounding the number of loop iterations the lazy generator
may run (fuel beyond the store size changes nothing).  `cf_buffer_size`
is `self.buffer_size` — the loop's stop test is
`len(key_slices) != self.buffer_size` — while `req_buffer_size` is the
locally computed page request size.  Yielded rows are
`(key, conv columns)` pairs; skipping element `j = 0` of every page
after the first (`i != 0`) is `List.drop 1`.  Result: (the fetched
pages, the yielded rows).  The source's `if key_slices is None: return`
guard is not modelled: the fetch model always returns a list, and an
empty list already ends the loop through the length test.  The source
indexes `key_slices[-1]` only after seeing a full page, so the
`getLast?` fallback branch is dead for any positive buffer size. -/
def get_range_loop {β : Type} (store : List (Nat × List ColumnOrSuper))
    (cf_buffer_size req_buffer_size finish : Nat) (row_count : Option Nat)
    (conv : List ColumnOrSuper → β) :
    Nat → Nat → Nat → Nat →
      List (List (Nat × List ColumnOrSuper)) × List (Nat × β)
  | 0, _, _, _ => ([], [])
  | fuel + 1, last_key, i, count =>
    let key_slices := fetchRangeSlices store last_key finish req_buffer_size
    let visible := if i = 0 then key_slices else key_slices.drop 1
    let e := emitWithLimit (visible.map (fun r => (r.1, conv r.2))) count row_count
    if e.2.2 then ([key_slices], e.1)
    else if key_slices.length ≠ cf_buffer_size then ([key_slices], e.1)
    else
      match key_slices.getLast? with
      | none => ([key_slices], e.1)
      | some last_row =>
        let q := get_range_loop store cf_buffer_size req_buffer_size finish row_count
          conv fuel last_row.1 (i + 1) e.2.1
        (key_slices :: q.1, e.1 ++ q.2)

/-- `ColumnFamily.get_range`: computes the request page size
(`min(row_count, self.buffer_size)` when a row limit is given) and runs
the paging loop from the inclusive `start` key.  Returns the pages that
the remote calls produced together with the yielded rows. -/
def get_range {β : Type} (store : List (Nat × List ColumnOrSuper))
    (buffer_size start finish : Nat) (row_count : Option Nat) (fuel : Nat)
    (conv : List ColumnOrSuper → β) :
    List (List (Nat × List ColumnOrSuper)) × List (Nat × β) :=
  let req := match row_count with
    | some rc => min rc buffer_size
    | none => buffer_size
  get_range_loop store buffer_size req finish row_count conv fuel start 0 0

/-- Reassembly of the yielded rows from the fetched pages when no row
limit is set: the first page is emitted whole, every later page is
emitted with its first row dropped. -/
def dropFirstEmit {β : Type} (f : Nat × List ColumnOrSuper → Nat × β) :
    Bool → List (List (Nat × List ColumnOrSuper)) → List (Nat × β)
  | _, [] => []
  | first, p :: ps =>
      (if first then p else p.drop 1).map f ++ dropFirstEmit f false ps

/-- A three-row store `A < B < C` with one column per row, used to
exercise the paging loop at page size 2. -/
def threeRowStore : List (Nat × List ColumnOrSuper) :=
  [(1, [.col ⟨[1], [11], 0⟩]), (2, [.col ⟨[2], [12], 0⟩]), (3, [.col ⟨[3], [13], 0⟩])]

/-! ### Lemmas about the range scanner -/

theorem fetchRangeSlices_sublist (store : List (Nat × List ColumnOrSuper))
    (s e c : Nat) : List.Sublist (fetchRangeSlices store s e c) store :=
  (List.take_sublist _ _).trans (List.filter_sublist _)

theorem fetchRangeSlices_sorted (store : List (Nat × List ColumnOrSuper))
    (hs : store.Pairwise (fun a b => a.1 < b.1)) (s e c : Nat) :
    (fetchRangeSlices store s e c).Pairwise (fun a b => a.1 < b.1) :=
  hs.sublist (fetchRangeSlices_sublist store s e c)

theorem fetchRangeSlices_lb (store : List (Nat × List ColumnOrSuper)) (s e c : Nat) :
    ∀ r ∈ fetchRangeSlices store s e c, s ≤ r.1 := by
  intro r hr
  have hmem := List.mem_of_mem_take hr
  have := (List.mem_filter.1 hmem).2
  simp only [Bool.and_eq_true, decide_eq_true_eq] at this
  exact this.1

/-- In a list sorted strictly by key, every member's key is at most the
last member's key. -/
theorem sorted_le_getLast {α : Type} (l : List (Nat × α))
    (hs : l.Pairwise (fun a b => a.1 < b.1)) (x : Nat × α) (hx : l.getLast? = some x) :
    ∀ r ∈ l, r.1 ≤ x.1 := by
  induction l with
  | nil => simp at hx
  | cons a t ih =>
    cases t with
    | nil =>
      simp only [List.getLast?_singleton, Option.some.injEq] at hx
      subst hx
      intro r hr
      simp only [List.mem_singleton] at hr
      subst hr
      exact le_refl _
    | cons b t' =>
      rw [List.getLast?_cons_cons] at hx
      obtain ⟨ha, ht⟩ := List.pairwise_cons.1 hs
      intro r hr
      rcases List.mem_cons.1 hr with rfl | hr
      · have hxm : x ∈ b :: t' := List.mem_of_mem_getLast? hx
        exact le_of_lt (ha x hxm)
      · exact ih ht hx r hr

theorem emitWithLimit_sublist {γ : Type} (l : List γ) (c : Nat) (rc : Option Nat) :
    List.Sublist (emitWithLimit l c rc).1 l := by
  induction l generalizing c with
  | nil => simp [emitWithLimit]
  | cons r rest ih =>
    cases rc with
    | none =>
      simp only [emitWithLimit]
      exact (ih (c + 1)).cons₂ r
    | some rcv =>
      simp only [emitWithLimit]
      by_cases hst : rcv ≤ c + 1
      · simp only [hst, if_true]
        exact (List.nil_sublist rest).cons₂ r
      · simp only [hst, if_false]
        exact (ih (c + 1)).cons₂ r

theorem emitWithLimit_none {γ : Type} (l : List γ) (c : Nat) :
    emitWithLimit l c none = (l, c + l.length, false) := by
  induction l generalizing c with
  | nil => simp [emitWithLimit]
  | cons r rest ih =>
    simp only [emitWithLimit, ih (c + 1), List.length_cons]
    refine congrArg (fun n => (r :: rest, n, false)) ?_
    omega

/-- Main invariant of the paging loop over a key-sorted store: the
yielded keys are strictly increasing, and every yielded key is at least
the cursor (strictly above it on every iteration after the first). -/
theorem get_range_loop_bounds {β : Type} (store : List (Nat × List ColumnOrSuper))
    (hsort : store.Pairwise (fun a b => a.1 < b.1))
    (cfb reqb finish : Nat) (rcnt : Option Nat) (conv : List ColumnOrSuper → β) :
    ∀ (fuel last_key i count : Nat),
      (((get_range_loop store cfb reqb finish rcnt conv fuel last_key i count).2.map
          Prod.fst).Pairwise (· < ·)) ∧
      (∀ e ∈ (get_range_loop store cfb reqb finish rcnt conv fuel last_key i count).2,
        last_key ≤ e.1 ∧ (i ≠ 0 → last_key < e.1)) := by
  intro fuel
  induction fuel with
  | zero =>
    intro last_key i count
    simp [get_range_loop]
  | succ fuel ih =>
    intro last_key i count
    simp only [get_range_loop]
    set page := fetchRangeSlices store last_key finish reqb with hpageDef
    have hpage_sorted : page.Pairwise (fun a b => a.1 < b.1) :=
      fetchRangeSlices_sorted store hsort last_key finish reqb
    have hpage_lb : ∀ r ∈ page, last_key ≤ r.1 :=
      fetchRangeSlices_lb store last_key finish reqb
    set visible := (if i = 0 then page else page.drop 1) with hvisDef
    have hvis_sub : List.Sublist visible page := by
      rw [hvisDef]
      by_cases hi : i = 0
      · simp [hi]
      · simp only [hi, if_false]
        exact List.drop_sublist 1 page
    have hvis_bound : ∀ r ∈ visible, last_key ≤ r.1 ∧ (i ≠ 0 → last_key < r.1) := by
      intro r hr
      refine ⟨hpage_lb r (hvis_sub.subset hr), ?_⟩
      intro hi
      rw [hvisDef] at hr
      simp only [hi, if_false] at hr
      match page, hr, hpage_sorted, hpage_lb with
      | p0 :: prest, hr, hps, hlb =>
        simp only [List.drop_one, List.tail_cons] at hr
        exact lt_of_le_of_lt (hlb p0 (by simp))
          ((List.pairwise_cons.1 hps).1 r hr)
    set chunkE := emitWithLimit (visible.map (fun r => (r.1, conv r.2))) count rcnt
      with hchunkDef
    have hchunk_sub : List.Sublist chunkE.1 (visible.map (fun r => (r.1, conv r.2))) :=
      emitWithLimit_sublist _ _ _
    have hchunk_sorted : (chunkE.1.map Prod.fst).Pairwise (· < ·) := by
      have h1 : List.Sublist (chunkE.1.map Prod.fst)
          ((visible.map (fun r => (r.1, conv r.2))).map Prod.fst) :=
        hchunk_sub.map Prod.fst
      have h2 : (visible.map (fun r => (r.1, conv r.2))).map Prod.fst
          = visible.map Prod.fst := by
        rw [List.map_map]
        rfl
      rw [h2] at h1
      have h3 : (visible.map Prod.fst).Pairwise (· < ·) :=
        (hpage_sorted.sublist hvis_sub).map Prod.fst (fun a b hab => hab)
      exact h3.sublist h1
    have hchunk_mem : ∀ e ∈ chunkE.1, ∃ r ∈ visible, e.1 = r.1 := by
      intro e he
      obtain ⟨r, hr, rfl⟩ := List.mem_map.1 (hchunk_sub.subset he)
      exact ⟨r, hr, rfl⟩
    have hchunk_bound : ∀ e ∈ chunkE.1, last_key ≤ e.1 ∧ (i ≠ 0 → last_key < e.1) := by
      intro e he
      obtain ⟨r, hr, hre⟩ := hchunk_mem e he
      rw [hre]
      exact hvis_bound r hr
    have hchunk_le_last : ∀ x, page.getLast? = some x → ∀ e ∈ chunkE.1, e.1 ≤ x.1 := by
      intro x hx e he
      obtain ⟨r, hr, hre⟩ := hchunk_mem e he
      rw [hre]
      exact sorted_le_getLast page hpage_sorted x hx r (hvis_sub.subset hr)
    by_cases hstop : chunkE.2.2 = true
    · simp only [hstop, if_true]
      exact ⟨hchunk_sorted, hchunk_bound⟩
    · simp only [hstop, if_false]
      by_cases hlen : page.length ≠ cfb
      · rw [if_pos hlen]
        exact ⟨hchunk_sorted, hchunk_bound⟩
      · rw [if_neg hlen]
        match hlast : page.getLast? with
        | none => exact ⟨hchunk_sorted, hchunk_bound⟩
        | some last_row =>
          simp only [Bool.false_eq_true, if_false]
          have hlast_lb : last_key ≤ last_row.1 :=
            hpage_lb last_row (List.mem_of_mem_getLast? hlast)
          obtain ⟨ihs, ihb⟩ := ih last_row.1 (i + 1) chunkE.2.1
          refine ⟨?_, ?_⟩
          · simp only [List.map_append]
            rw [List.pairwise_append]
            refine ⟨hchunk_sorted, ihs, ?_⟩
            intro a ha b hb
            obtain ⟨ea, hea, rfl⟩ := List.mem_map.1 ha
            obtain ⟨eb, heb, rfl⟩ := List.mem_map.1 hb
            calc ea.1 ≤ last_row.1 := hchunk_le_last last_row hlast ea hea
              _ < eb.1 := (ihb eb heb).2 (by omega)
          · intro e he
            rcases List.mem_append.1 he with he | he
            · exact hchunk_bound e he
            · have := (ihb e he).2 (by omega)
              exact ⟨by omega, fun _ => by omega⟩

/-- With no row limit, the yielded rows are exactly the fetched pages
reassembled with the first row of every page after the first dropped. -/
theorem get_range_loop_structure {β : Type} (store : List (Nat × List ColumnOrSuper))
    (cfb reqb finish : Nat) (conv : List ColumnOrSuper → β) :
    ∀ (fuel last_key i count : Nat),
      (get_range_loop store cfb reqb finish none conv fuel last_key i count).2
        = dropFirstEmit (fun r => (r.1, conv r.2)) (decide (i = 0))
            (get_range_loop store cfb reqb finish none conv fuel last_key i count).1 := by
  intro fuel
  induction fuel with
  | zero =>
    intro last_key i count
    simp [get_range_loop, dropFirstEmit]
  | succ fuel ih =>
    intro last_key i count
    simp only [get_range_loop]
    set page := fetchRangeSlices store last_key finish reqb with hpageDef
    set visible := (if i = 0 then page else page.drop 1) with hvisDef
    rw [emitWithLimit_none]
    simp only [Bool.false_eq_true, if_false]
    by_cases hlen : page.length ≠ cfb
    · rw [if_pos hlen]
      simp only [dropFirstEmit, List.append_nil]
      by_cases hi : i = 0
      · simp [hvisDef, hi]
      · simp [hvisDef, hi]
    · rw [if_neg hlen]
      match hlast : page.getLast? with
      | none =>
        simp only [dropFirstEmit, List.append_nil]
        by_cases hi : i = 0
        · simp [hvisDef, hi]
        · simp [hvisDef, hi]
      | some last_row =>
        simp only [dropFirstEmit]
        rw [ih last_row.1 (i + 1) _]
        simp only [Nat.add_eq_zero, one_ne_zero, and_false, decide_False,
          dropFirstEmit]
        by_cases hi : i = 0
        · simp [hvisDef, hi]
        · simp [hvisDef, hi]

/-! ## Time-UUID boundary packing (`ColumnFamily._pack_name`) -/

/-- `_NON_SLICE` from `columnfamily.py`. -/
def NON_SLICE : Nat := 0

/-- `_SLICE_START` from `columnfamily.py`. -/
def SLICE_START : Nat := 1

/-- `_SLICE_FINISH` from `columnfamily.py`. -/
def SLICE_FINISH : Nat := 2

/-- The eight time bytes of a version-1 UUID for a 60-bit timestamp
`t`: `time_low` (4 bytes), `time_mid` (2 bytes), and
`time_hi_and_version` (2 bytes carrying the version nibble `1`). -/
def uuidTimeBytes (t : Nat) : List Nat :=
  natToBytesBE 4 (t % 2 ^ 32) ++ natToBytesBE 2 ((t / 2 ^ 32) % 2 ^ 16)
    ++ natToBytesBE 2 (4096 + (t / 2 ^ 48) % 4096)

/-- Modelled from the spec: `convert_time_to_uuid` with
`randomize=False` (defined in `pycassa.util`, which is not under
`src/`): builds the version-1 UUID for time value `t` whose
non-timestamp bits are minimal when `lowest_val` is true (an inclusive
lower slice bound that compares `≤` every UUID sharing `t`) and maximal
otherwise (an inclusive upper bound). -/
def convert_time_to_uuid (t : Nat) (lowest_val : Bool) : List Nat :=
  uuidTimeBytes t ++ List.replicate 8 (if lowest_val then 0 else 255)

/-- `ColumnFamily._pack_name` on a `TimeUUIDType` comparator with a
slice-end marker: the time value is converted to a boundary UUID
(`lowest_val` exactly when the marker is `_SLICE_START`) and `_pack`
then emits the UUID's 16 raw bytes.  The `slice_end = _NON_SLICE` path
draws a randomized UUID; its entropy is the explicit `entropy`
argument (modelled from the spec: "a randomized UUID bound to the given
time value"). -/
def pack_name_timeuuid (t : Nat) (slice_end : Nat) (entropy : List Nat) : List Nat :=
  if slice_end ≠ NON_SLICE then
    convert_time_to_uuid t (decide (slice_end = SLICE_START))
  else
    uuidTimeBytes t ++ entropy

/-- Lexicographic comparison of byte strings. -/
def lexLE : List Nat → List Nat → Bool
  | [], _ => true
  | _ :: _, [] => false
  | a :: as, b :: bs => if a < b then true else if b < a then false else lexLE as bs

/-- The timestamp a version-1 UUID's bytes embed (inverse of
`uuidTimeBytes`). -/
def extractTimeUUID (u : List Nat) : Nat :=
  bytesToNatBE (u.take 4) + 2 ^ 32 * bytesToNatBE ((u.drop 4).take 2)
    + 2 ^ 48 * (bytesToNatBE ((u.drop 6).take 2) % 4096)

/-- Modelled from the spec: the store's native `TimeUUIDType` comparator
orders names by their embedded timestamp first, then by raw bytes. -/
def timeuuidLE (u v : List Nat) : Bool :=
  if extractTimeUUID u ≠ extractTimeUUID v
  then decide (extractTimeUUID u < extractTimeUUID v)
  else lexLE u v

theorem uuidTimeBytes_length (t : Nat) : (uuidTimeBytes t).length = 8 := by
  simp [uuidTimeBytes, natToBytesBE_length]

theorem extractTimeUUID_append (t : Nat) (x : List Nat) :
    extractTimeUUID (uuidTimeBytes t ++ x) = extractTimeUUID (uuidTimeBytes t) := by
  have h8 : (uuidTimeBytes t).length = 8 := uuidTimeBytes_length t
  unfold extractTimeUUID
  rw [List.take_append_of_le_length (by omega), List.drop_append_of_le_length (by omega),
    List.drop_append_of_le_length (by omega),
    List.take_append_of_le_length (by simp [h8]),
    List.take_append_of_le_length (by simp [h8])]

theorem lexLE_append_same (c x y : List Nat) :
    lexLE (c ++ x) (c ++ y) = lexLE x y := by
  induction c with
  | nil => rfl
  | cons a as ih => simp [lexLE, ih]

theorem lexLE_replicate_zero (n : Nat) (r : List Nat) (h : n ≤ r.length) :
    lexLE (List.replicate n 0) r = true := by
  induction n generalizing r with
  | zero => simp [lexLE]
  | succ n ih =>
    cases r with
    | nil => simp at h
    | cons b bs =>
      simp only [List.replicate_succ, lexLE]
      by_cases hb : 0 < b
      · simp [hb]
      · have hb0 : b = 0 := by omega
        subst hb0
        simp only [lt_irrefl, if_false]
        exact ih bs (by simp at h; omega)

theorem lexLE_replicate_max (n : Nat) (r : List Nat)
    (hlen : r.length ≤ n) (hbytes : ∀ b ∈ r, b < 256) :
    lexLE r (List.replicate n 255) = true := by
  induction r generalizing n with
  | nil => simp [lexLE]
  | cons b bs ih =>
    cases n with
    | zero => simp at hlen
    | succ n =>
      have hb : b < 256 := hbytes b (by simp)
      simp only [List.replicate_succ, lexLE]
      by_cases hlt : b < 255
      · simp [hlt]
      · have hb255 : b = 255 := by omega
        subst hb255
        simp only [lt_irrefl, if_false]
        exact ih n (by simp at hlen; omega) (fun x hx => hbytes x (by simp [hx]))

/-! ## Batch insertion (`ColumnFamily.batch_insert`) -/

/-- Modelled from the spec: the `CfMutator` batch buffer from
`pycassa.batch` (not under `src/`), of which `batch_insert` uses
`insert` — staging one write per call — and `send`.  Only the staged
mutations are tracked. -/
structure CfMutator (β : Type) where
  staged : List (Nat × β × Nat × Option Nat)

/-- Modelled from the spec: `CfMutator.insert(key, columns, timestamp,
ttl)` stages one write. -/
def mutator_insert {β : Type} (b : CfMutator β) (key : Nat) (cols : β) (ts : Nat)
    (ttl : Option Nat) : CfMutator β :=
  ⟨b.staged ++ [(key, cols, ts, ttl)]⟩

/-- `ColumnFamily.batch_insert`: when `timestamp` is `None` the handle's
timestamp function is called (once) to obtain it; every row of `rows` is
staged through `batch.insert` with that timestamp and `send` flushes
them; the timestamp is returned.  The handle's timestamp function is the
`clock` argument, indexed by call number; the result additionally
records the number of calls made to it. -/
def batch_insert {β : Type} (rows : List (Nat × β)) (timestamp : Option Nat)
    (ttl : Option Nat) (clock : Nat → Nat) :
    List (Nat × β × Nat × Option Nat) × Nat × Nat :=
  let p := match timestamp with
    | none => (clock 0, 1)
    | some t => (t, 0)
  let batch := rows.foldl (fun b (kv : Nat × β) => mutator_insert b kv.1 kv.2 p.1 ttl)
    ⟨[]⟩
  (batch.staged, p.1, p.2)

theorem foldl_mutator_insert {β : Type} (rows : List (Nat × β)) (ts : Nat)
    (ttl : Option Nat) (b : CfMutator β) :
    (rows.foldl (fun b (kv : Nat × β) => mutator_insert b kv.1 kv.2 ts ttl) b).staged
      = b.staged ++ rows.map (fun kv => (kv.1, kv.2, ts, ttl)) := by
  induction rows generalizing b with
  | nil => simp
  | cons kv rest ih =>
    simp only [List.foldl_cons, List.map_cons]
    rw [ih]
    simp [mutator_insert]

/-! ## Helper lemmas about `suffixAfterLastDot` -/

theorem suffixAfterLastDot_eq_none (cs : List Char) :
    suffixAfterLastDot cs = none ↔ '.' ∉ cs := by
  induction cs with
  | nil => simp [suffixAfterLastDot]
  | cons c rest ih =>
    simp only [suffixAfterLastDot, List.mem_cons]
    match h : suffixAfterLastDot rest with
    | some t =>
      have hm : '.' ∈ rest := by
        by_contra hn
        exact absurd (ih.mpr hn) (by simp [h])
      simp [hm]
    | none =>
      have hrest : '.' ∉ rest := ih.mp h
      by_cases hc : c = '.'
      · subst hc
        simp [hrest]
      · simp [eq_comm, hc, hrest]

theorem takeWhile_append_of_not_all {p : Char → Bool} (l₁ l₂ : List Char)
    (h : ∃ x ∈ l₁, ¬ p x) : (l₁ ++ l₂).takeWhile p = l₁.takeWhile p := by
  induction l₁ with
  | nil => simp at h
  | cons a l ih =>
    by_cases ha : p a
    · simp only [List.cons_append, List.takeWhile_cons, ha, if_true]
      obtain ⟨x, hx, hpx⟩ := h
      rcases List.mem_cons.1 hx with rfl | hx
      · exact absurd ha hpx
      · rw [ih ⟨x, hx, hpx⟩]
    · simp [List.takeWhile_cons, ha]

theorem takeWhile_append_of_all {p : Char → Bool} (l₁ l₂ : List Char)
    (h : ∀ x ∈ l₁, p x) : (l₁ ++ l₂).takeWhile p = l₁ ++ l₂.takeWhile p := by
  induction l₁ with
  | nil => simp
  | cons a l ih =>
    have ha : p a = true := h a (by simp)
    simp only [List.cons_append, List.takeWhile_cons, ha, if_true]
    rw [ih (fun x hx => h x (by simp [hx]))]

/-- The trailing component of a dotted path, computed from the right:
the characters after the last `'.'`. -/
theorem suffixAfterLastDot_eq_some (cs : List Char) (t : List Char)
    (h : suffixAfterLastDot cs = some t) :
    '.' ∈ cs ∧ t = (cs.reverse.takeWhile (· ≠ '.')).reverse := by
  induction cs generalizing t with
  | nil => simp [suffixAfterLastDot] at h
  | cons c rest ih =>
    simp only [suffixAfterLastDot] at h
    match hr : suffixAfterLastDot rest with
    | some t' =>
      rw [hr] at h
      obtain rfl : t' = t := by simpa using h
      obtain ⟨hdot, hval⟩ := ih t' hr
      refine ⟨by simp [hdot], ?_⟩
      rw [hval]
      have hex : ∃ x ∈ rest.reverse, ¬ ((· ≠ '.') x : Bool) := by
        refine ⟨'.', by simp [hdot], by simp⟩
      simp only [List.reverse_cons]
      rw [takeWhile_append_of_not_all _ _ hex]
    | none =>
      rw [hr] at h
      have hnd : '.' ∉ rest := (suffixAfterLastDot_eq_none rest).1 hr
      by_cases hc : c = '.'
      · subst hc
        simp only [if_true] at h
        obtain rfl : rest = t := by simpa using h
        refine ⟨by simp, ?_⟩
        have hall : ∀ x ∈ rest.reverse, ((· ≠ '.') x : Bool) := by
          intro x hx
          simp only [List.mem_reverse] at hx
          simp only [decide_eq_true_eq]
          intro hx'
          exact hnd (hx' ▸ hx)
        simp only [List.reverse_cons]
        rw [takeWhile_append_of_all _ _ hall]
        simp
      · simp [hc] at h

/-! ## The claim theorems for the codec and predicate layer -/

/-- **C2**: for every type tag `T` in the closed set and every value `v`
valid for `T`, unpacking the packed bytes returns exactly `v`: packing
followed by unpacking under the same tag is the identity (no lossy type
in the set). -/
theorem claim_pack_unpack_roundtrip (T : String) (hT : T ∈ TYPES) (v : PyValue)
    (hv : validFor v T) : (pack v T).bind (fun w => unpack w T) = some v := by
  simp only [TYPES, List.mem_cons, List.not_mem_nil, or_false] at hT
  rcases hT with rfl | rfl | rfl | rfl | rfl | rfl | rfl
  · -- BytesType
    simp only [validFor] at hv
    norm_num at hv
    obtain ⟨bs, rfl⟩ := hv
    simp [pack, unpack]
  · -- LongType
    simp only [validFor, String.reduceEq, reduceIte] at hv
    obtain ⟨n, rfl, h1, h2⟩ := hv
    have hm1 : (0:Int) ≤ n % (2^64 : Int) := Int.emod_nonneg n (by norm_num)
    have hm2 : n % (2^64 : Int) < 2^64 := Int.emod_lt_of_pos n (by norm_num)
    have hlt : (n % (2^64 : Int)).toNat < 256 ^ 8 := by
      norm_num at hm2 ⊢
      omega
    simp only [pack, String.reduceEq, reduceIte]
    rw [if_pos (⟨h1, h2⟩ : -(2^63) ≤ n ∧ n < 2^63)]
    simp only [Option.some_bind, unpack, String.reduceEq, reduceIte,
      natToBytesBE_length, bytesToNatBE_natToBytesBE _ _ hlt, Option.some.injEq,
      PyValue.int.injEq]
    norm_num at hm2 h1 h2 ⊢
    split <;> omega
  · -- IntegerType
    simp only [validFor, String.reduceEq, reduceIte] at hv
    obtain ⟨n, rfl, h1, h2⟩ := hv
    have hm1 : (0:Int) ≤ n % (2^32 : Int) := Int.emod_nonneg n (by norm_num)
    have hm2 : n % (2^32 : Int) < 2^32 := Int.emod_lt_of_pos n (by norm_num)
    have hlt : (n % (2^32 : Int)).toNat < 256 ^ 4 := by
      norm_num at hm2 ⊢
      omega
    simp only [pack, String.reduceEq, reduceIte]
    rw [if_pos (⟨h1, h2⟩ : -(2^31) ≤ n ∧ n < 2^31)]
    simp only [Option.some_bind, unpack, String.reduceEq, reduceIte,
      natToBytesBE_length, bytesToNatBE_natToBytesBE _ _ hlt, Option.some.injEq,
      PyValue.int.injEq]
    norm_num at hm2 h1 h2 ⊢
    split <;> omega
  · -- UTF8Type
    simp only [validFor, String.reduceEq, reduceIte] at hv
    obtain ⟨cs, rfl, hcs⟩ := hv
    simp [pack, unpack, utf8Decode_encode cs hcs]
  · -- AsciiType
    simp only [validFor, String.reduceEq, reduceIte] at hv
    norm_num at hv
    obtain ⟨bs, rfl⟩ := hv
    simp [pack, unpack]
  · -- LexicalUUIDType
    simp only [validFor, String.reduceEq, reduceIte] at hv
    norm_num at hv
    obtain ⟨bs, rfl, hlen⟩ := hv
    simp [pack, unpack, hlen]
  · -- TimeUUIDType
    simp only [validFor, String.reduceEq, reduceIte] at hv
    norm_num at hv
    obtain ⟨bs, rfl, hlen⟩ := hv
    simp [pack, unpack, hlen]

/-- Witness for C2: the round trip at `T = LongType`, `v = 1` (the
spec's own example: `pack(1, Int64)` is `00 00 00 00 00 00 00 01`). -/
theorem claim_pack_unpack_roundtrip_witness :
    (pack (.int 1) "LongType").bind (fun w => unpack w "LongType") = some (.int 1) :=
  claim_pack_unpack_roundtrip "LongType" (by simp [TYPES]) (.int 1)
    (by simp only [validFor, reduceIte]; exact ⟨1, rfl, by norm_num, by norm_num⟩)

/-- **C4**: whenever the caller supplies an explicit column-name list,
the constructed `SlicePredicate` takes the explicit-list form, and the
`column_start`/`column_finish`/`column_reversed`/`column_count`
arguments have no effect whatsoever on the constructed predicate. -/
theorem claim_explicit_columns_predicate (cols : List (List Nat))
    (column_start column_finish : List Nat) (column_reversed : Bool)
    (column_count : Nat) :
    create_SlicePredicate (some cols) column_start column_finish column_reversed
        column_count = SlicePred.col_names cols := rfl

/-- **C10**: an empty but non-`None` columns list still produces the
explicit-list predicate (with an empty name list): the decision tests
`columns is not None`, not non-emptiness, so the range arguments are
ignored even though no column names are requested. -/
theorem claim_empty_columns_predicate (column_start column_finish : List Nat)
    (column_reversed : Bool) (column_count : Nat) :
    create_SlicePredicate (some []) column_start column_finish column_reversed
        column_count = SlicePred.col_names [] := rfl

/-- **C6**: the resolved type name is always a member of the closed set
`_TYPES`; it is the trailing component after the last `'.'` of the
declared path when that component is recognized, and defaults to
`'BytesType'` when the path is absent, has no dot, or the component is
unrecognized. -/
theorem claim_extract_type_name_spec (s : Option (List Char)) :
    extract_type_name s ∈ TYPES ∧
    (s = none → extract_type_name s = "BytesType") ∧
    (∀ cs, s = some cs → '.' ∉ cs → extract_type_name s = "BytesType") ∧
    (∀ cs, s = some cs → '.' ∈ cs →
      extract_type_name s =
        (if String.mk ((cs.reverse.takeWhile (· ≠ '.')).reverse) ∈ TYPES
         then String.mk ((cs.reverse.takeWhile (· ≠ '.')).reverse)
         else "BytesType")) := by
  refine ⟨?_, ?_, ?_, ?_⟩
  · match s with
    | none => simp [extract_type_name, TYPES]
    | some cs =>
      simp only [extract_type_name]
      match h : suffixAfterLastDot cs with
      | none => simp [TYPES]
      | some t =>
        show (if String.mk t ∈ TYPES then String.mk t else "BytesType") ∈ TYPES
        by_cases ht : String.mk t ∈ TYPES
        · rw [if_pos ht]
          exact ht
        · rw [if_neg ht]
          simp [TYPES]
  · intro h
    subst h
    rfl
  · intro cs h hdot
    subst h
    simp only [extract_type_name]
    match h : suffixAfterLastDot cs with
    | none => rfl
    | some t => exact absurd (suffixAfterLastDot_eq_some cs t h).1 hdot
  · intro cs h hdot
    subst h
    simp only [extract_type_name]
    match h : suffixAfterLastDot cs with
    | none => exact absurd hdot (by rw [← suffixAfterLastDot_eq_none]; exact h)
    | some t =>
      obtain ⟨-, rfl⟩ := suffixAfterLastDot_eq_some cs t h
      rfl

/-- Witness for C6: resolving the fully qualified path
`org.apache.cassandra.db.marshal.LongType` yields `LongType`. -/
theorem claim_extract_type_name_spec_witness :
    extract_type_name (some ("org.apache.cassandra.db.marshal.LongType".toList))
      = "LongType" := by
  have h := (claim_extract_type_name_spec
    (some ("org.apache.cassandra.db.marshal.LongType".toList))).2.2.2
    ("org.apache.cassandra.db.marshal.LongType".toList) rfl (by decide)
  rw [h]
  decide

/-- **C3**: a single-key `get` whose slice fetch returns zero columns
raises `NotFoundException` rather than returning an empty mapping, while
`multiget` over the same store never raises: its result holds exactly
the supplied keys that have data, in the order supplied, and a dataless
key leaves no entry (not even a `None` placeholder). -/
theorem claim_get_notfound_multiget_omits {β : Type} (conv : List ColumnOrSuper → β)
    (store : Nat → List ColumnOrSuper) (keys : List Nat) (hnd : keys.Nodup) :
    (∀ k, store k = [] → get (store k) conv = .error PycassaError.notFound) ∧
    multiget keys store conv
      = (keys.filter (fun k => (store k).length > 0)).map
          (fun k => (k, some (conv (store k)))) ∧
    (multiget keys store conv).map Prod.fst
      = keys.filter (fun k => (store k).length > 0) ∧
    (∀ e ∈ multiget keys store conv, e.2 ≠ none) := by
  refine ⟨?_, multiget_eq keys store conv hnd, ?_, ?_⟩
  · intro k hk
    simp [get, hk]
  · rw [multiget_eq keys store conv hnd, List.map_map]
    exact List.map_id _
  · intro e he
    rw [multiget_eq keys store conv hnd] at he
    obtain ⟨k, hk, rfl⟩ := List.mem_map.1 he
    simp

/-- Witness for C3: keys `[1, 2, 3]` where key `2` has no data: `get` on
key `2` raises, `multiget` returns exactly keys `1` and `3` in order. -/
theorem claim_get_notfound_multiget_omits_witness :
    get ((fun k => if k = 2 then ([] : List ColumnOrSuper)
          else [.col ⟨[7], [8], 0⟩]) 2) (fun l => l.length)
        = .error PycassaError.notFound ∧
    multiget [1, 2, 3]
        (fun k => if k = 2 then ([] : List ColumnOrSuper) else [.col ⟨[7], [8], 0⟩])
        (fun l => l.length)
      = [(1, some 1), (3, some 1)] := by
  have h := claim_get_notfound_multiget_omits (fun l => l.length)
    (fun k => if k = 2 then ([] : List ColumnOrSuper) else [.col ⟨[7], [8], 0⟩])
    [1, 2, 3] (by decide)
  exact ⟨h.1 2 rfl, by rw [h.2.1]; rfl⟩

/-- **C8**: `get_indexed_slices` raises `NotFoundException` when the
indexed fetch matches zero key slices — in contrast to `multiget`, which
represents a dataless key purely by omission from its result. -/
theorem claim_indexed_notfound_vs_multiget {β : Type} (conv : List ColumnOrSuper → β) :
    (∀ keyslices : List (Nat × List ColumnOrSuper), keyslices.length = 0 →
      get_indexed_slices keyslices conv = .error PycassaError.notFound) ∧
    (∀ (keys : List Nat) (store : Nat → List ColumnOrSuper) (k : Nat),
      keys.Nodup → store k = [] → ∀ e ∈ multiget keys store conv, e.1 ≠ k) := by
  constructor
  · intro keyslices hlen
    simp [get_indexed_slices, hlen]
  · intro keys store k hnd hk e he
    rw [multiget_eq keys store conv hnd] at he
    obtain ⟨k', hk', rfl⟩ := List.mem_map.1 he
    simp only [List.mem_filter] at hk'
    intro hx
    rw [show (k', some (conv (store k'))).1 = k' from rfl] at hx
    subst hx
    rw [hk] at hk'
    simp at hk'

/-- **C1 (counterexample)**: with page size 2 and three stored rows
`1 < 2 < 3` in the requested range and no row-count limit, `get_range`
yields each row exactly once in order, but issues three page-fetch RPCs,
not the two the claim states: after the full second page `[2, 3]` the
stop test `len(key_slices) != self.buffer_size` fails, so a third page
`[3]` is fetched (whose only row is dropped as the boundary duplicate)
before the iteration stops. -/
theorem claim_range_two_fetches_counterexample :
    (get_range threeRowStore 2 0 9 none 5 (fun cols => cols.length)).2.map Prod.fst
        = [1, 2, 3] ∧
    ¬ ((get_range threeRowStore 2 0 9 none 5 (fun cols => cols.length)).1.length = 2) := by
  decide

/-- **C1 (amended)**: with page size 2 and stored rows `1 < 2 < 3`,
`get_range` yields each row exactly once in order `[1, 2, 3]` via
exactly three page fetches: page one `[1, 2]` (full page, continue),
page two `[2, 3]` with `2` dropped as the boundary duplicate (also a
full page, so the scan continues), page three `[3]` with `3` dropped as
the boundary duplicate and nothing emitted (short page), after which the
iteration stops. -/
theorem claim_range_three_fetches :
    get_range threeRowStore 2 0 9 none 5 (fun cols => cols.length)
      = ([[(1, [.col ⟨[1], [11], 0⟩]), (2, [.col ⟨[2], [12], 0⟩])],
          [(2, [.col ⟨[2], [12], 0⟩]), (3, [.col ⟨[3], [13], 0⟩])],
          [(3, [.col ⟨[3], [13], 0⟩])]],
         [(1, 1), (2, 1), (3, 1)]) := by
  decide

/-- **C5**: over a key-sorted store, the lazy sequence `get_range`
produces never yields the same row key twice — the yielded keys are
strictly increasing, so the cursor only moves forward — and (with no row
limit) every page after the first has its first row dropped before
emission: the yields are exactly the pages reassembled by
`dropFirstEmit`. -/
theorem claim_range_scan_no_duplicates {β : Type}
    (store : List (Nat × List ColumnOrSuper))
    (hsort : store.Pairwise (fun a b => a.1 < b.1))
    (buffer_size start finish fuel : Nat) (row_count : Option Nat)
    (conv : List ColumnOrSuper → β) :
    (((get_range store buffer_size start finish row_count fuel conv).2.map
        Prod.fst).Pairwise (· < ·)) ∧
    ((get_range store buffer_size start finish none fuel conv).2
      = dropFirstEmit (fun r => (r.1, conv r.2)) true
          (get_range store buffer_size start finish none fuel conv).1) := by
  constructor
  · exact (get_range_loop_bounds store hsort buffer_size _ finish row_count conv
      fuel start 0 0).1
  · exact get_range_loop_structure store buffer_size buffer_size finish conv
      fuel start 0 0

/-- Witness for C5: the three-row store at page size 2 — yielded keys
`[1, 2, 3]` strictly increasing, later pages emitted minus their first
row. -/
theorem claim_range_scan_no_duplicates_witness :
    (((get_range threeRowStore 2 0 9 none 5 (fun cols => cols.length)).2.map
        Prod.fst).Pairwise (· < ·)) ∧
    ((get_range threeRowStore 2 0 9 none 5 (fun cols => cols.length)).2
      = dropFirstEmit (fun r => (r.1, (fun cols => cols.length) r.2)) true
          (get_range threeRowStore 2 0 9 none 5 (fun cols => cols.length)).1) :=
  claim_range_scan_no_duplicates threeRowStore (by decide) 2 0 9 5 none
    (fun cols => cols.length)

/-- **C7**: for one timestamp `t`, packing `t` as a `TimeUUIDType` name
with boundary role start and with boundary role finish produces two
different 16-byte sequences; under the store's native comparator the
start encoding orders `≤` the finish encoding and `≤` every UUID built
for that timestamp (and every such UUID orders `≤` the finish
encoding). -/
theorem claim_timeuuid_boundary (t : Nat) (rest : List Nat)
    (hlen : rest.length = 8) (hbytes : ∀ b ∈ rest, b < 256) :
    pack_name_timeuuid t SLICE_START [] ≠ pack_name_timeuuid t SLICE_FINISH [] ∧
    (pack_name_timeuuid t SLICE_START []).length = 16 ∧
    (pack_name_timeuuid t SLICE_FINISH []).length = 16 ∧
    timeuuidLE (pack_name_timeuuid t SLICE_START [])
        (pack_name_timeuuid t SLICE_FINISH []) = true ∧
    timeuuidLE (pack_name_timeuuid t SLICE_START [])
        (uuidTimeBytes t ++ rest) = true ∧
    timeuuidLE (uuidTimeBytes t ++ rest)
        (pack_name_timeuuid t SLICE_FINISH []) = true := by
  have hs : pack_name_timeuuid t SLICE_START []
      = uuidTimeBytes t ++ List.replicate 8 0 := by
    simp [pack_name_timeuuid, SLICE_START, NON_SLICE, convert_time_to_uuid]
  have hf : pack_name_timeuuid t SLICE_FINISH []
      = uuidTimeBytes t ++ List.replicate 8 255 := by
    simp [pack_name_timeuuid, SLICE_FINISH, SLICE_START, NON_SLICE, convert_time_to_uuid]
  have hext : ∀ x : List Nat, extractTimeUUID (uuidTimeBytes t ++ x)
      = extractTimeUUID (uuidTimeBytes t) := extractTimeUUID_append t
  refine ⟨?_, ?_, ?_, ?_, ?_, ?_⟩
  · rw [hs, hf]
    intro heq
    exact absurd (List.append_cancel_left heq) (by decide)
  · rw [hs]
    simp [uuidTimeBytes_length]
  · rw [hf]
    simp [uuidTimeBytes_length]
  · rw [hs, hf, timeuuidLE, if_neg (by rw [hext, hext]; simp),
      lexLE_append_same]
    exact lexLE_replicate_zero 8 _ (by simp)
  · rw [hs, timeuuidLE, if_neg (by rw [hext, hext]; simp), lexLE_append_same]
    exact lexLE_replicate_zero 8 rest (by omega)
  · rw [hf, timeuuidLE, if_neg (by rw [hext, hext]; simp), lexLE_append_same]
    exact lexLE_replicate_max 8 rest (by omega) hbytes

/-- Witness for C7: timestamp `5` against the UUID whose non-timestamp
bytes are all `7`. -/
theorem claim_timeuuid_boundary_witness :
    pack_name_timeuuid 5 SLICE_START [] ≠ pack_name_timeuuid 5 SLICE_FINISH [] ∧
    (pack_name_timeuuid 5 SLICE_START []).length = 16 ∧
    (pack_name_timeuuid 5 SLICE_FINISH []).length = 16 ∧
    timeuuidLE (pack_name_timeuuid 5 SLICE_START [])
        (pack_name_timeuuid 5 SLICE_FINISH []) = true ∧
    timeuuidLE (pack_name_timeuuid 5 SLICE_START [])
        (uuidTimeBytes 5 ++ List.replicate 8 7) = true ∧
    timeuuidLE (uuidTimeBytes 5 ++ List.replicate 8 7)
        (pack_name_timeuuid 5 SLICE_FINISH []) = true :=
  claim_timeuuid_boundary 5 (List.replicate 8 7) (by decide) (by decide)

/-- **C9**: a `batch_insert` with no explicit timestamp obtains exactly
one timestamp from the handle's timestamp function, attaches that same
timestamp to every row's staged mutation in the call, and returns it. -/
theorem claim_batch_insert_one_timestamp {β : Type} (rows : List (Nat × β))
    (ttl : Option Nat) (clock : Nat → Nat) :
    (batch_insert rows none ttl clock).2.2 = 1 ∧
    (batch_insert rows none ttl clock).2.1 = clock 0 ∧
    (batch_insert rows none ttl clock).1
      = rows.map (fun kv => (kv.1, kv.2, clock 0, ttl)) := by
  refine ⟨rfl, rfl, ?_⟩
  have h := foldl_mutator_insert rows (clock 0) ttl ⟨[]⟩
  simpa using h

/-- Witness for C8: an empty key-slice response raises; a key with no
data (key `5`) is absent from the entries `multiget` returns. -/
theorem claim_indexed_notfound_vs_multiget_witness :
    get_indexed_slices ([] : List (Nat × List ColumnOrSuper)) (fun l => l.length)
        = .error PycassaError.notFound ∧
    ((1 : Nat), some (1 : Nat)).1 ≠ 5 := by
  have h := claim_indexed_notfound_vs_multiget (fun l => l.length)
  refine ⟨h.1 [] rfl, ?_⟩
  exact h.2 [1, 5] (fun k => if k = 1 then [.col ⟨[7], [8], 0⟩] else []) 5
    (by decide) rfl (1, some 1) (by rw [multiget_eq _ _ _ (by decide)]; decide)

end Pycassa
